import Mathlib

/-!
Verification development for the drunk template compiler and binding runtime.

The definitions below are a shallow embedding of the TypeScript sources:
  * `src/promise/promise.ts` (the `drunk.Template` module: `compile`,
    `compileNodeList`, `compileElement`, `compileTextNode`,
    `processTerminalBinding`, `processNormalBinding`, `createExecutor`);
  * `src/component/component.ts` (`Component.mount`, `Component.getByElement`,
    `Component.setWeakRef`) together with `util.uuid` from the util module;
  * the custom `drunk.Promise` scheduling discipline (`then` always defers the
    callback to a later tick) as used by component data resolution.

DOM nodes are modelled as a tree (`DNode`), the directive registry and the
interpolation tokenizer are external collaborators and appear as parameters,
and machine-level JavaScript behaviours (string `indexOf`/`slice`, array
`splice` with a negative start, attribute truthiness, `typeof x === undefined`)
are translated explicitly.
-/

namespace Drunk

/-! ## JavaScript string and array primitives -/

/-- Character-list prefix test (used to implement JS `String.prototype.indexOf`). -/
def leadsWith : List Char → List Char → Bool
  | [], _ => true
  | _ :: _, [] => false
  | c :: cs, d :: ds => c = d && leadsWith cs ds

/-- First index (if any) at which `pat` occurs in the list, scanning left to right. -/
def idxAux (pat : List Char) : List Char → Option Nat
  | [] => if leadsWith pat [] then some 0 else none
  | c :: t => if leadsWith pat (c :: t) then some 0 else (idxAux pat t).map (fun n => n + 1)

/-- JS `s.indexOf(pat)`: first occurrence index, `-1` when absent. -/
def strIndexOf (s pat : String) : Int :=
  match idxAux pat.data s.data with
  | some n => (n : Int)
  | none => -1

/-- JS `s.slice(i)` for a non-negative start index. -/
def strSliceFrom (s : String) (i : Nat) : String := ⟨s.data.drop i⟩

/-- First index of the element `x` in a list of binding identities
(JS `Array.prototype.indexOf` restricted to the ledger use site). -/
def firstIdxAux (x : Nat) : List Nat → Option Nat
  | [] => none
  | y :: t => if y = x then some 0 else (firstIdxAux x t).map (fun n => n + 1)

/-- JS `ledger.indexOf(bindingList[0])`: when the owned slice is empty the JS
lookup is `indexOf(undefined)` which yields `-1`; otherwise it is the first
occurrence of the identity, `-1` when absent. -/
def jsIndexOfOpt (l : List Nat) : Option Nat → Int
  | none => -1
  | some x =>
    match firstIdxAux x l with
    | some n => (n : Nat)
    | none => -1

/-- The actual start index of JS `Array.prototype.splice(start, count)`: a
negative start counts from the end, clamped at 0; a non-negative one is
clamped at the length. -/
def jsSpliceStart (l : List Nat) (start : Int) : Nat :=
  (if start < 0 then max ((l.length : Int) + start) 0 else min start (l.length : Int)).toNat

/-- JS `Array.prototype.splice(start, count)` (resulting array only). -/
def jsSplice (l : List Nat) (start : Int) (count : Nat) : List Nat :=
  l.take (jsSpliceStart l start) ++ l.drop (jsSpliceStart l start + count)

/-! ## Data model: nodes, descriptors, registry, configuration -/

/-- A markup node: element (tag, ordered attribute list, children), text, or
another node kind (comment etc.), mirroring the `nodeType` dispatch of
`compileNode`. -/
inductive DNode where
  | element (tag : String) (attrs : List (String × String)) (children : List DNode)
  | text (content : String)
  | other
deriving Repr

/-- `node.tagName` (absent on non-elements). -/
def DNode.tagOf : DNode → Option String
  | .element t _ _ => some t
  | _ => none

/-- `node.childNodes` (empty on non-elements: text/comment nodes carry none). -/
def DNode.childrenOf : DNode → List DNode
  | .element _ _ cs => cs
  | _ => []

/-- `node.hasChildNodes()`. -/
def DNode.hasChildNodes (n : DNode) : Bool := !n.childrenOf.isEmpty

/-- Replace an element node's children (attribute compilation leaves children
untouched; child compilation rewrites them). -/
def DNode.setChildren : DNode → List DNode → DNode
  | .element t a _, cs => .element t a cs
  | n, _ => n

/-- Compile-time binding descriptor (`IBindingDefinition` literal objects built
in `processTerminalBinding` / `processNormalBinding` / `compileTextNode`). -/
structure Descriptor where
  name : String
  expression : String
  attrName : Option String := none
  isTerminal : Bool := false
  isInterpolate : Bool := false
deriving Repr, DecidableEq

/-- A directive definition from the registry: `priority`, `retainAttribute`,
and (for terminal directives) an `isTerminal` field; a JS object may simply
lack the field, hence the `Option`. -/
structure BindingDefinition where
  priority : Int
  retainAttribute : Bool := false
  isTerminal : Option Bool := none
deriving Repr, DecidableEq

/-- The directive registry (external collaborator):
`Binding.getDefinintionByName` and `Binding.getTerminalBindings`. -/
structure Registry where
  definitions : String → Option BindingDefinition
  terminals : List String

/-- Process-wide configuration: `config.prefix` (field renamed `pfx` here) and
`config.debug`. -/
structure DrunkConfig where
  pfx : String
  debug : Bool
deriving Repr, DecidableEq

/-- An interpolation token: literal string or expression
(`parser.parseInterpolate` output shape). -/
inductive Token where
  | lit (s : String)
  | expr (e : String)
deriving Repr, DecidableEq

/-- The interpolation tokenizer (external collaborator):
`parser.hasInterpolation` and `parser.parseInterpolate`. -/
structure Tokenizer where
  hasInterpolation : String → Bool
  parseInterpolate : String → List Token

/-- `util.extend(descriptor, definition)`: fields present on the definition
overwrite the descriptor's; only `isTerminal` is both shared and optional. -/
def mergeDescriptor (d : Descriptor) (defn : BindingDefinition) : Descriptor :=
  match defn.isTerminal with
  | some b => { d with isTerminal := b }
  | none => d

/-- A compiled unit, as data.  In the source an executor is a closure; its
observable structure is: a single `Binding.create` call (`createExecutor`), a
priority-ordered sequence over one element (`processNormalBinding`), the
textarea eager-eval wrapper (`compileElement`), a per-token text-node unit
(`compileTextNode`), or a combined node-collection unit (`compileNodeList`,
stored flat: node executor then child executor per node). -/
inductive Executor where
  | leaf (d : Descriptor) (priority : Int)
  | seq (es : List Executor)
  | textareaWrap (inner : Option Executor)
  | textNode (toks : List (Option Executor))
  | nodes (exs : List (Option Executor))
deriving Repr

/-- The `isTerminal` tag attached to executor closures: only `createExecutor`
results carry one (`executor.isTerminal = descriptor.isTerminal`); every other
closure leaves the property undefined, which is falsy. -/
def Executor.isTerminalTag : Executor → Bool
  | .leaf d _ => d.isTerminal
  | _ => false

/-- The `priority` tag attached by `createExecutor`
(`executor.priority = definition.priority`); other closures leave it undefined. -/
def Executor.priorityOf : Executor → Int
  | .leaf _ p => p
  | _ => 0

/-- The truthiness test `executor && executor.isTerminal` on a possibly
absent executor. -/
def optTerminalTag : Option Executor → Bool
  | some e => e.isTerminalTag
  | none => false

/-- Errors: `typeError` models the implicit JS `TypeError` of reading a
property of `undefined`; `structuralMismatch` is the explicit
"nodes were dynamically modified before binding" error of `compileNodeList`. -/
inductive RunErr where
  | typeError
  | structuralMismatch
deriving Repr, DecidableEq

/-! ## Attribute access -/

/-- JS `element.getAttribute(nm)` over the ordered attribute list. -/
def getAttr (attrs : List (String × String)) (nm : String) : Option String :=
  (attrs.find? (fun a => a.1 == nm)).map (fun a => a.2)

/-- The truthiness test `if (expression = element.getAttribute(...))`: an
absent attribute gives `null`, an empty string is falsy; both fail the test. -/
def truthyAttr (attrs : List (String × String)) (nm : String) : Option String :=
  match getAttr attrs nm with
  | some v => if v = "" then none else some v
  | none => none

/-- JS `element.removeAttribute(nm)` (DOM attribute names are unique, so
removing the first occurrence is exact). -/
def eraseAttr (attrs : List (String × String)) (nm : String) : List (String × String) :=
  attrs.eraseP (fun a => a.1 == nm)

/-! ## Compilation: createExecutor and the attribute scans -/

/-- `createExecutor(element, descriptor)`.  `hasRemoveAttr` models whether
`element.removeAttribute` exists (true for elements, false for text nodes).
When the registry has no definition and `config.debug` is set, the match is
skipped with a console warning; when `config.debug` is not set the code falls
through and reads `definition.retainAttribute` on `undefined`, raising a
`TypeError`. -/
def createExecutor (reg : Registry) (cfg : DrunkConfig) (hasRemoveAttr : Bool)
    (attrs : List (String × String)) (d : Descriptor) :
    Except RunErr (List (String × String) × Option Executor) :=
  match reg.definitions d.name with
  | none =>
    if cfg.debug then .ok (attrs, none)
    else .error .typeError
  | some defn =>
    let attrs2 :=
      if !defn.retainAttribute && hasRemoveAttr then eraseAttr attrs (cfg.pfx ++ d.name)
      else attrs
    .ok (attrs2, some (.leaf (mergeDescriptor d defn) defn.priority))

/-- The `for (var i = 0; name = terminals[i]; i++)` loop of
`processTerminalBinding`: a falsy entry (end of list or the empty string)
stops the scan; the first attribute passing the truthiness test wins and its
`createExecutor` result is returned immediately. -/
def terminalLoop (reg : Registry) (cfg : DrunkConfig) (attrs : List (String × String)) :
    List String → Except RunErr (List (String × String) × Option Executor)
  | [] => .ok (attrs, none)
  | name :: rest =>
    if name = "" then .ok (attrs, none)
    else
      match truthyAttr attrs (cfg.pfx ++ name) with
      | some e =>
        createExecutor reg cfg true attrs { name := name, expression := e, isTerminal := true }
      | none => terminalLoop reg cfg attrs rest

/-- `processTerminalBinding(element)`. -/
def processTerminalBinding (reg : Registry) (cfg : DrunkConfig)
    (attrs : List (String × String)) :
    Except RunErr (List (String × String) × Option Executor) :=
  terminalLoop reg cfg attrs reg.terminals

/-- One step of the `processNormalBinding` attribute scan: a name containing
the configured prefix at an index `> -1` and `< name.length - 1` is a directive
invocation (name = the slice after the prefix); otherwise a value containing
interpolation becomes an implicit `attr` binding; otherwise the attribute is
ignored.  The accumulator carries the current (possibly already stripped)
attribute list and the executors collected so far in scan order. -/
def scanStep (P : Tokenizer) (reg : Registry) (cfg : DrunkConfig)
    (acc : List (String × String) × List Executor) (a : String × String) :
    Except RunErr (List (String × String) × List Executor) :=
  let nm := a.1
  let idx := strIndexOf nm cfg.pfx
  let expr := a.2
  if (-1 : Int) < idx ∧ idx < (nm.length : Int) - 1 then do
    let dname := strSliceFrom nm (idx.toNat + cfg.pfx.length)
    let (attrs2, e?) ← createExecutor reg cfg true acc.1 { name := dname, expression := expr }
    match e? with
    | some e => .ok (attrs2, acc.2 ++ [e])
    | none => .ok (attrs2, acc.2)
  else if P.hasInterpolation expr then do
    let (attrs2, e?) ← createExecutor reg cfg true acc.1
      { name := ("attr"), attrName := some nm, expression := expr, isInterpolate := true }
    match e? with
    | some e => .ok (attrs2, acc.2 ++ [e])
    | none => .ok (attrs2, acc.2)
  else
    .ok acc

/-- The full attribute scan of `processNormalBinding`
(`util.toArray(element.attributes).forEach(...)`): the iteration walks a
snapshot of the original attribute list while removals apply to the live
element, threaded through the accumulator. -/
def scanBindings (P : Tokenizer) (reg : Registry) (cfg : DrunkConfig)
    (attrs : List (String × String)) :
    Except RunErr (List (String × String) × List Executor) :=
  attrs.foldlM (scanStep P reg cfg) (attrs, [])

/-- Stable insertion of an executor into a descending-priority list: the new
(later-scanned) executor lands after every entry of priority `≥` its own.
This realises the ECMAScript stable `Array.prototype.sort` with comparator
`(a, b) => b.priority - a.priority`. -/
def insertExec (x : Executor) : List Executor → List Executor
  | [] => [x]
  | y :: ys => if y.priorityOf ≥ x.priorityOf then y :: insertExec x ys else x :: y :: ys

/-- `executors.sort((a, b) => b.priority - a.priority)` as a stable sort. -/
def sortExecs (l : List Executor) : List Executor :=
  l.foldl (fun acc x => insertExec x acc) []

/-- `processNormalBinding(element)`: scan all attributes, and when at least one
executor was produced return the combined unit that invokes them in descending
priority order. -/
def processNormalBinding (P : Tokenizer) (reg : Registry) (cfg : DrunkConfig)
    (attrs : List (String × String)) :
    Except RunErr (List (String × String) × Option Executor) := do
  let (attrs2, es) ← scanBindings P reg cfg attrs
  if es.length ≠ 0 then .ok (attrs2, some (.seq (sortExecs es)))
  else .ok (attrs2, none)

/-- The textarea special case at the end of `compileElement`: a TEXTAREA always
gets the eager-eval wrapper closure (which carries no `isTerminal`/`priority`
tags), other tags keep the executor as is. -/
def wrapTextarea (tag : String) (e? : Option Executor) : Option Executor :=
  if tag = ("TEXTAREA") then some (.textareaWrap e?) else e?

/-- `compileElement(element)`: when the element has attributes, try the
terminal scan first and fall back to the normal scan when it produced no
executor (`processTerminalBinding(element) || processNormalBinding(element)`);
then apply the textarea wrapper. -/
def compileElement (P : Tokenizer) (reg : Registry) (cfg : DrunkConfig)
    (tag : String) (attrs : List (String × String)) :
    Except RunErr (List (String × String) × Option Executor) := do
  let (attrs1, e1) ←
    if attrs.isEmpty then (.ok (attrs, none) : Except RunErr _)
    else do
      let (a1, t?) ← processTerminalBinding reg cfg attrs
      match t? with
      | some e => .ok (a1, some e)
      | none => processNormalBinding P reg cfg a1
  .ok (attrs1, wrapTextarea tag e1)

/-- `compileTextNode(node)`: without interpolation there is no unit; otherwise
each expression token yields a `bind` descriptor compiled through
`createExecutor` (a text node has no `removeAttribute`, so nothing is
stripped), literal tokens yield empty slots. -/
def compileTextNode (P : Tokenizer) (reg : Registry) (cfg : DrunkConfig)
    (content : String) : Except RunErr (Option Executor) :=
  if !P.hasInterpolation content then .ok none
  else do
    let exs ← (P.parseInterpolate content).mapM (fun tok =>
      match tok with
      | .lit _ => (.ok none : Except RunErr (Option Executor))
      | .expr e => do
        let (_, e?) ← createExecutor reg cfg false [] { name := ("bind"), expression := e }
        pure e?)
    .ok (some (.textNode exs))

/-- `compileNode(node)`: elements other than SCRIPT go through
`compileElement`, text nodes through `compileTextNode`, every other node kind
yields nothing.  The returned node carries the attribute mutations. -/
def compileNode (P : Tokenizer) (reg : Registry) (cfg : DrunkConfig) :
    DNode → Except RunErr (DNode × Option Executor)
  | .element tag attrs children =>
    if tag = ("SCRIPT") then .ok (.element tag attrs children, none)
    else do
      let (attrs2, e?) ← compileElement P reg cfg tag attrs
      .ok (.element tag attrs2 children, e?)
  | .text c => do
    let e? ← compileTextNode P reg cfg c
    .ok (.text c, e?)
  | .other => .ok (.other, none)

mutual

/-- The per-node loop of `compileNodeList`: compile the node, then — only when
its unit is absent or not terminal and the node has children — compile the
children recursively; push the pair (node executor, child executor) flat onto
the executor list.  `compileNode` never touches `childNodes`, so recursing on
the original children is exact. -/
def compileListAux (P : Tokenizer) (reg : Registry) (cfg : DrunkConfig) :
    List DNode → Except RunErr (List DNode × List (Option Executor))
  | [] => .ok ([], [])
  | n :: rest => do
    let (n1, e?) ← compileNode P reg cfg n
    let isTerm := optTerminalTag e?
    let (n2, ce?) ←
      if !isTerm && n.hasChildNodes then do
        let (cs2, ce?) ← compileNodeList P reg cfg n.childrenOf
        (.ok (n1.setChildren cs2, ce?) : Except RunErr (DNode × Option Executor))
      else .ok (n1, none)
    let (restNodes, restExs) ← compileListAux P reg cfg rest
    .ok (n2 :: restNodes, e? :: ce? :: restExs)
termination_by ns => (sizeOf ns, 0)
decreasing_by
  all_goals simp_wf
  all_goals
    first
      | (apply Prod.Lex.right; omega)
      | (apply Prod.Lex.left; cases n <;> simp [DNode.childrenOf] <;> omega)
      | (cases n <;> simp [DNode.childrenOf] <;> omega)
      | omega

/-- `compileNodeList(nodeList)`: build the flat executor list and return the
combined node-collection unit when it has more than one entry. -/
def compileNodeList (P : Tokenizer) (reg : Registry) (cfg : DrunkConfig)
    (ns : List DNode) : Except RunErr (List DNode × Option Executor) := do
  let (ns2, exs) ← compileListAux P reg cfg ns
  if exs.length > 1 then .ok (ns2, some (.nodes exs)) else .ok (ns2, none)
termination_by (sizeOf ns, 1)
decreasing_by
  simp_wf
  first
    | (apply Prod.Lex.right; omega)
    | omega

end

/-- Top-level `Template.compile(node)` input: a single node or a raw array of
nodes. -/
inductive CompileInput where
  | node (n : DNode)
  | arr (ns : List DNode)

/-- The pair of compiled units captured by the closure `Template.compile`
returns: the node-level unit and the separately compiled child-level unit. -/
structure CompiledProgram where
  executor : Option Executor
  childExecutor : Option Executor
deriving Repr

/-- `Template.compile(node)`: an array input delegates to `compileNodeList`;
a single node is compiled by `compileNode`, and when its unit is absent or not
terminal, the node is not a SCRIPT and has children, the children are compiled
side by side. -/
def compile (P : Tokenizer) (reg : Registry) (cfg : DrunkConfig) :
    CompileInput → Except RunErr CompiledProgram
  | .arr ns => do
    let (_, e?) ← compileNodeList P reg cfg ns
    .ok { executor := e?, childExecutor := none }
  | .node n => do
    let (n1, e?) ← compileNode P reg cfg n
    let isTerm := optTerminalTag e?
    if !isTerm && n1.tagOf ≠ some ("SCRIPT") && n1.hasChildNodes then do
      let (_, ce?) ← compileNodeList P reg cfg n1.childrenOf
      .ok { executor := e?, childExecutor := ce? }
    else
      .ok { executor := e?, childExecutor := none }

/-! ## Execution: the binding ledger and the run semantics -/

/-- The runtime view object state relevant to binding bookkeeping: the ordered
binding ledger (`viewModel._bindings`, each live binding represented by a
unique identity) and the source of fresh identities. -/
structure BSt where
  ledger : List Nat
  nextId : Nat
deriving Repr, DecidableEq

/-- `Binding.create(viewModel, element, descriptor, ...)` as observed by the
ledger: a fresh live binding is appended. -/
def bindingCreate (s : BSt) : BSt :=
  { ledger := s.ledger ++ [s.nextId], nextId := s.nextId + 1 }

/-- The live argument an executor is invoked with: a single node or a node
collection (`element.childNodes`). -/
inductive LiveTarget where
  | one (n : DNode)
  | many (ns : List DNode)

mutual

/-- Executing a compiled unit against a live target and ledger state.  The
result is the final state paired with the first raised error, if any (JS
exceptions unwind but already-appended bindings stay in the ledger).  The
`nodes` case performs the `nodes.length * 2 !== executors.length` structural
check before touching any pair; invoking it on a non-collection leaves
`nodes.length` undefined, which also fails the check in JS. -/
def runExec : Executor → LiveTarget → BSt → BSt × Option RunErr
  | .leaf _ _, _, s => (bindingCreate s, none)
  | .seq es, t, s => runSeq es t s
  | .textareaWrap inner, t, s =>
    (match inner with
     | none => (s, none)
     | some e => runExec e t s)
  | .textNode toks, _, s => runToks toks s
  | .nodes exs, t, s =>
    (match t with
     | .many ns =>
       if ns.length * 2 ≠ exs.length then (s, some .structuralMismatch)
       else runPairs ns exs s
     | .one _ => (s, some .structuralMismatch))
termination_by e => (sizeOf e, 0)
decreasing_by all_goals (simp_wf; omega)

/-- The `executors.forEach(...)` of a `processNormalBinding` combined unit:
run the sorted executors in order against the same element, stopping at the
first raised error. -/
def runSeq : List Executor → LiveTarget → BSt → BSt × Option RunErr
  | [], _, s => (s, none)
  | e :: rest, t, s =>
    match runExec e t s with
    | (s1, none) => runSeq rest t s1
    | r => r
termination_by es => (sizeOf es, 1)
decreasing_by all_goals (simp_wf; omega)

/-- The per-token executor walk of a `compileTextNode` unit: each expression
slot runs against its freshly cloned placeholder text node. -/
def runToks : List (Option Executor) → BSt → BSt × Option RunErr
  | [], s => (s, none)
  | none :: rest, s => runToks rest s
  | some e :: rest, s =>
    match runExec e (.one (DNode.text (" "))) s with
    | (s1, none) => runToks rest s1
    | r => r
termination_by toks => (sizeOf toks, 1)
decreasing_by all_goals (simp_wf; omega)

/-- The execution walk of a combined node-collection unit: for each live node
take the next two entries of the flat executor list, run the node executor
against the node and the child executor against its `childNodes`. -/
def runPairs : List DNode → List (Option Executor) → BSt → BSt × Option RunErr
  | n :: ns, e1 :: e2 :: rest, s =>
    (match runOptExec e1 (.one n) s with
     | (s1, none) =>
       (match runOptExec e2 (.many n.childrenOf) s1 with
        | (s2, none) => runPairs ns rest s2
        | r => r)
     | r => r)
  | _, _, s => (s, none)
termination_by _ exs => (sizeOf exs, 1)
decreasing_by all_goals (simp_wf; omega)

/-- Running an optional executor: an absent unit is skipped. -/
def runOptExec : Option Executor → LiveTarget → BSt → BSt × Option RunErr
  | none, _, s => (s, none)
  | some e, t, s => runExec e t s
termination_by e => (sizeOf e, 1)
decreasing_by all_goals (simp_wf; omega)

end

/-- The `childNodes` argument handed to the child-level unit by the closure
`Template.compile` returns. -/
def childTarget : LiveTarget → LiveTarget
  | .one n => .many n.childrenOf
  | .many _ => .many []

/-- The closure returned by `Template.compile`, executed against a view object:
record `startIndex = _bindings.length`, run the node-level and child-level
units, and capture the appended slice as this execution's owned bindings.  On
an error the exception propagates and no disposer is obtained (third component
empty). -/
def executeCompiled (prog : CompiledProgram) (live : LiveTarget) (s : BSt) :
    BSt × Option RunErr × List Nat :=
  match runOptExec prog.executor live s with
  | (s1, some err) => (s1, some err, [])
  | (s1, none) =>
    match runOptExec prog.childExecutor (childTarget live) s1 with
    | (s2, some err) => (s2, some err, [])
    | (s2, none) => (s2, none, s2.ledger.drop s.ledger.length)

/-- The disposer closure: call `dispose()` on each owned binding in creation
order (first component: the dispose call order), then relocate the first owned
binding's current ledger position by identity (`indexOf`) and splice out
`bindingList.length` contiguous entries (second component: the new ledger). -/
def disposeOwned (owned : List Nat) (ledger : List Nat) : List Nat × List Nat :=
  (owned, jsSplice ledger (jsIndexOfOpt ledger owned.head?) owned.length)

/-! ## Component mounting and the element/component weak reference table

`Component.mount` (src/component/component.ts) guards against double mounts
through `Component.getByElement`, which keys a side table by `util.uuid` of
the element.  `util.uuid` is translated exactly, including its
`typeof target[nameOfUid] === undefined` comparison of a string against the
`undefined` value. -/

/-- A JavaScript value as far as the uuid machinery observes it. -/
inductive JSVal where
  | undef
  | num (n : Nat)
  | str (s : String)
deriving Repr, DecidableEq

/-- JS `typeof v` (restricted to the modelled value kinds). -/
def jsTypeof : JSVal → String
  | .undef => ("undefined")
  | .num _ => ("number")
  | .str _ => ("string")

/-- JS strict equality `===` on the modelled values: values of different
runtime types are never strictly equal. -/
def jsStrictEq : JSVal → JSVal → Bool
  | .undef, .undef => true
  | .num m, .num n => m = n
  | .str s, .str t => s = t
  | _, _ => false

/-- JS object-property key coercion: `obj[k]` stringifies the key, so
`weakRefMap[undefined]` reads the key `"undefined"`. -/
def jsPropKey : JSVal → String
  | .undef => ("undefined")
  | .num n => toString n
  | .str s => s

/-- The state of the component module: per-element stored `__DRUNK_UUID__`
value (indexed by element number, initially `undefined`), the uuid counter,
the `weakRefMap` side table (JS string key to component), and the installed
binding programs (element, component) in installation order. -/
structure MountWorld where
  elemUid : List JSVal
  counter : Nat
  weakRefMap : List (String × Nat)
  mounted : List (Nat × Nat)
deriving Repr, DecidableEq

/-- `util.uuid(target)`: the guard compares the string result of `typeof`
against the value `undefined` with `===`, then returns the stored field.
Returns the uuid value and the updated world. -/
def uuid (w : MountWorld) (e : Nat) : JSVal × MountWorld :=
  let stored := w.elemUid.getD e .undef
  if jsStrictEq (.str (jsTypeof stored)) .undef then
    let v := JSVal.num w.counter
    (v, { w with elemUid := w.elemUid.set e v, counter := w.counter + 1 })
  else
    (stored, w)

/-- Association-list lookup for the weak-ref table. -/
def lookupKey (m : List (String × Nat)) (k : String) : Option Nat :=
  (m.find? (fun a => a.1 == k)).map (fun a => a.2)

/-- Association-list update for the weak-ref table. -/
def setKey (m : List (String × Nat)) (k : String) (v : Nat) : List (String × Nat) :=
  match m.find? (fun a => a.1 == k) with
  | some _ => m.map (fun a => if a.1 == k then (k, v) else a)
  | none => m ++ [(k, v)]

/-- `Component.getByElement(element)`: look the element's uuid up in the side
table. -/
def getByElement (w : MountWorld) (e : Nat) : Option Nat × MountWorld :=
  let (uid, w1) := uuid w e
  (lookupKey w1.weakRefMap (jsPropKey uid), w1)

/-- `Component.setWeakRef(element, viewModel)`: record the element-to-component
reference unless a different component already sits under the same key. -/
def setWeakRef (w : MountWorld) (e : Nat) (c : Nat) : MountWorld :=
  let (uid, w1) := uuid w e
  let key := jsPropKey uid
  match lookupKey w1.weakRefMap key with
  | some c' => if c' ≠ c then w1 else { w1 with weakRefMap := setKey w1.weakRefMap key c }
  | none => { w1 with weakRefMap := setKey w1.weakRefMap key c }

/-- `Component.mount(element, ...)`: abort (non-fatally, via `console.error`)
when `getByElement` finds a component, otherwise compile-and-execute the
binding program onto the element (recorded in `mounted`) and register the weak
reference.  Returns the world and whether the mount proceeded. -/
def mount (w : MountWorld) (e : Nat) (c : Nat) : MountWorld × Bool :=
  let (found, w1) := getByElement w e
  match found with
  | some _ => (w1, false)
  | none =>
    let w2 := { w1 with mounted := w1.mounted ++ [(e, c)] }
    let w3 := setWeakRef w2 e c
    (w3, true)

/-! ## Component data resolution as an event trace

`Component.$resolveData` (and the older `Component.__init`) iterates the data
descriptors: for each property it synchronously installs the proxy
(`this.proxy(name)` / `this.$proxy(property)`) and then hands the value to
`Promise.resolve(value).then(assign, warn)`.  In drunk's Promise, `then`
never invokes a callback synchronously: a settled promise schedules the
callback through `nextTick` (`setTimeout(..., 0)`) and a pending promise
subscribes, with `publish` again deferring through `nextTick`.  Hence every
assignment callback runs strictly after the synchronous loop, in whatever
order the futures settle.  The model below emits the synchronous proxy events
followed by a scheduler phase that dequeues the pending assignments in an
arbitrary oracle-chosen order. -/

/-- Observable events of data resolution. -/
inductive DataEvent where
  | proxy (name : String)
  | assign (name : String)
deriving Repr, DecidableEq

/-- The deferred-assignment scheduler: each oracle entry picks (modulo the
queue length) which pending property settles and is assigned next. -/
def runScheduler : List String → List Nat → List DataEvent
  | _, [] => []
  | [], _ => []
  | q@(_ :: _), i :: rest =>
    let j := i % q.length
    let name := q.getD j ("")
    DataEvent.assign name :: runScheduler (q.take j ++ q.drop (j + 1)) rest

/-- The full event trace of `$resolveData(dataDescriptors)` for the given
property list: proxies are installed synchronously in key order during the
call, then the assignments run in scheduler order. -/
def dataTrace (names : List String) (oracle : List Nat) : List DataEvent :=
  names.map DataEvent.proxy ++ runScheduler names oracle

/-- First index of a name in the queue (0 when absent at the end). -/
def idxOfStr (s : String) : List String → Nat
  | [] => 0
  | q0 :: qr => if q0 = s then 0 else idxOfStr s qr + 1

/-- The oracle that makes the pending assignments settle exactly in the order
given by the first argument (each entry picks the index of the next name in
the current queue). -/
def oracleFor : List String → List String → List Nat
  | [], _ => []
  | s :: rest, q =>
    idxOfStr s q :: oracleFor rest (q.take (idxOfStr s q) ++ q.drop (idxOfStr s q + 1))

/-! ## Auxiliary specification-side definitions used by the theorems -/

/-- Group the flat executor list of a combined node-collection unit into
(node executor, child executor) pairs, as `compileNodeList` pushed them. -/
def pairUp : List (Option Executor) → List (Option Executor × Option Executor)
  | e1 :: e2 :: rest => (e1, e2) :: pairUp rest
  | _ => []

/-- Reference execution of a zipped (live node, executor pair) list: each pair
runs against its corresponding live node, node executor first, then the child
executor against that node's children, stopping at the first error. -/
def runPairsSpec : List (DNode × (Option Executor × Option Executor)) → BSt →
    BSt × Option RunErr
  | [], s => (s, none)
  | (n, (e1, e2)) :: rest, s =>
    (match runOptExec e1 (.one n) s with
     | (s1, none) =>
       (match runOptExec e2 (.many n.childrenOf) s1 with
        | (s2, none) => runPairsSpec rest s2
        | r => r)
     | r => r)

/-- Ledger-state extension: execution only appends, and every appended live
binding is fresh (its identity is at least the previous `nextId`). -/
def StExt (s s' : BSt) : Prop :=
  s.nextId ≤ s'.nextId ∧ ∃ X, s'.ledger = s.ledger ++ X ∧ ∀ x ∈ X, s.nextId ≤ x

/-- Well-formedness of a view object's ledger: every installed binding's
identity is below the fresh-identity counter. -/
def LedgerFresh (s : BSt) : Prop := ∀ x ∈ s.ledger, x < s.nextId

/-- No attribute of the list is a directive invocation or carries
interpolation (the two match conditions of the `processNormalBinding` scan). -/
def staticAttrs (P : Tokenizer) (cfg : DrunkConfig)
    (attrs : List (String × String)) : Bool :=
  attrs.all (fun a =>
    !(decide ((-1 : Int) < strIndexOf a.1 cfg.pfx ∧
        strIndexOf a.1 cfg.pfx < ((a.1.length : Nat) : Int) - 1)) &&
    !P.hasInterpolation a.2)

/-- No terminal directive attribute of the element passes the truthiness test. -/
def noTerminalMatch (reg : Registry) (cfg : DrunkConfig)
    (attrs : List (String × String)) : Bool :=
  reg.terminals.all (fun t => (truthyAttr attrs (cfg.pfx ++ t)).isNone)

mutual

/-- A static subtree: no directive attribute, no terminal directive attribute,
no interpolation anywhere, and no TEXTAREA (whose value is always eagerly
rewritten by a wrapper unit). -/
def staticNode (P : Tokenizer) (reg : Registry) (cfg : DrunkConfig) : DNode → Bool
  | .element tag attrs cs =>
    tag ≠ ("TEXTAREA") && staticAttrs P cfg attrs && noTerminalMatch reg cfg attrs &&
      staticList P reg cfg cs
  | .text c => !P.hasInterpolation c
  | .other => true

/-- All nodes of the list are static subtrees. -/
def staticList (P : Tokenizer) (reg : Registry) (cfg : DrunkConfig) : List DNode → Bool
  | [] => true
  | n :: rest => staticNode P reg cfg n && staticList P reg cfg rest

end

/-! ## Concrete fixtures (used by counterexamples and witnesses) -/

/-- A concrete interpolation tokenizer for closed evaluations: interpolation
is marked by the substring `%%`.  (The real tokenizer is an external
collaborator; only `hasInterpolation`'s boolean answer and the token-list
shape matter to the compiler.) -/
def demoTokenizer : Tokenizer :=
  { hasInterpolation := fun s => (idxAux ("%%").data s.data).isSome,
    parseInterpolate := fun s => [Token.lit (""), Token.expr s] }

/-- A concrete directive registry with one terminal directive (`component`)
and a few ordinary ones. -/
def demoRegistry : Registry :=
  { definitions := fun n =>
      if n = ("component") then
        some { priority := 5, retainAttribute := false, isTerminal := some true }
      else if n = ("model") then some { priority := 8 }
      else if n = ("attr") then some { priority := 0 }
      else if n = ("bind") then some { priority := 1 }
      else if n = ("on") then some { priority := 3 }
      else none,
    terminals := [("component")] }

/-- Concrete configuration with diagnostics enabled. -/
def demoCfg : DrunkConfig := { pfx := ("drunk-"), debug := true }

/-- Concrete configuration with diagnostics disabled. -/
def demoCfgNoDebug : DrunkConfig := { pfx := ("drunk-"), debug := false }

/-- A component-module world with two fresh elements and nothing mounted. -/
def w0 : MountWorld :=
  { elemUid := [.undef, .undef], counter := 0, weakRefMap := [], mounted := [] }

/-! # Theorems -/

/-- C5: a descriptor whose name has no registry definition is skipped only
when `config.debug` is set; with diagnostics disabled, `createExecutor` falls
through its guard and reads `retainAttribute` on `undefined`, raising a
`TypeError` that aborts compilation — the code contradicts the claimed
non-fatal discard. -/
theorem missing_definition_not_nonfatal :
    createExecutor demoRegistry demoCfgNoDebug true [(("drunk-unknown"), ("x"))]
        { name := ("unknown"), expression := ("x") } = .error .typeError
    ∧ createExecutor demoRegistry demoCfg true [(("drunk-unknown"), ("x"))]
        { name := ("unknown"), expression := ("x") } =
      .ok ([(("drunk-unknown"), ("x"))], none) := by
  constructor <;> simp [createExecutor, demoRegistry, demoCfg, demoCfgNoDebug]

/-- C6: the double-mount guard misfires.  `util.uuid` compares the string
result of `typeof` against the `undefined` value, so it never assigns an id
and always returns `undefined`; every element therefore shares the weak-ref
key `"undefined"`.  Mounting component 100 onto element 0 succeeds, after
which mounting component 200 onto the distinct, never-mounted element 1 is
aborted (and installs nothing), refuting the claimed "aborts if and only if
the target node already carries a binding program". -/
theorem double_mount_guard_uuid_bug :
    (uuid w0 1).1 = JSVal.undef
    ∧ (mount w0 0 100).2 = true
    ∧ (mount w0 0 100).1.mounted = [(0, 100)]
    ∧ (mount (mount w0 0 100).1 1 200).2 = false
    ∧ (mount (mount w0 0 100).1 1 200).1.mounted = [(0, 100)] := by
  refine ⟨?_, ?_, ?_, ?_, ?_⟩ <;>
    simp [mount, getByElement, setWeakRef, uuid, w0, jsStrictEq, jsTypeof, jsPropKey,
      lookupKey, setKey]

/-- C8 counterexample: an interpolation match.  The element has the single
attribute `title="%%x%%"`; the scan resolves it to the implicit `attr`
directive, whose definition does not set `retainAttribute`, yet compilation
leaves `title` on the element (the code removes the attribute named
prefix + "attr" instead, a no-op here) — refuting "compilation removes that
match's triggering attribute". -/
theorem interpolation_attr_not_removed :
    processNormalBinding demoTokenizer demoRegistry demoCfg [(("title"), ("%%x%%"))] =
      .ok ([(("title"), ("%%x%%"))],
        some (.seq [.leaf { name := ("attr"), expression := ("%%x%%"), attrName := some ("title"), isInterpolate := true } 0]))
    ∧ demoRegistry.definitions ("attr") =
        some { priority := 0, retainAttribute := false } := by
  constructor
  · rfl
  · rfl

/-- Elements that do not satisfy the erasure test survive `eraseAttr`. -/
theorem mem_eraseAttr_of_ne {attrs : List (String × String)} {nm : String}
    (a : String × String) (ha : a ∈ attrs) (hne : a.1 ≠ nm) :
    a ∈ eraseAttr attrs nm := by
  unfold eraseAttr
  rw [List.mem_eraseP_of_neg]
  · exact ha
  · simp [hne]

/-- C8 (amended): for a resolved match, `createExecutor` removes exactly the
attribute named prefix + descriptor-name — the triggering attribute precisely
when the attribute's name is literally prefix + name (directive invocations),
but not the interpolated attribute of an implicit `attr` match — and removes
no other attribute; a `retainAttribute` definition leaves the element
untouched. -/
theorem resolved_match_attribute_removal
    (reg : Registry) (cfg : DrunkConfig) (attrs : List (String × String))
    (d : Descriptor) (defn : BindingDefinition)
    (hdef : reg.definitions d.name = some defn) :
    (defn.retainAttribute = false →
      createExecutor reg cfg true attrs d =
        .ok (eraseAttr attrs (cfg.pfx ++ d.name),
          some (.leaf (mergeDescriptor d defn) defn.priority))
      ∧ ∀ a ∈ attrs, a.1 ≠ cfg.pfx ++ d.name → a ∈ eraseAttr attrs (cfg.pfx ++ d.name))
    ∧ (defn.retainAttribute = true →
      createExecutor reg cfg true attrs d =
        .ok (attrs, some (.leaf (mergeDescriptor d defn) defn.priority))) := by
  constructor
  · intro hret
    constructor
    · simp [createExecutor, hdef, hret]
    · intro a ha hne
      exact mem_eraseAttr_of_ne a ha hne
  · intro hret
    simp [createExecutor, hdef, hret]

/-- Witness for C8 (amended): a `drunk-model` directive invocation strips
exactly its own attribute and keeps `class`. -/
theorem resolved_match_attribute_removal_witness :
    createExecutor demoRegistry demoCfg true
        [(("drunk-model"), ("y")), (("class"), ("c"))]
        { name := ("model"), expression := ("y") } =
      .ok ([(("class"), ("c"))],
        some (.leaf { name := ("model"), expression := ("y") } 8))
    ∧ (("class"), ("c")) ∈ eraseAttr
        [(("drunk-model"), ("y")), (("class"), ("c"))] (demoCfg.pfx ++ ("model")) := by
  have h := (resolved_match_attribute_removal demoRegistry demoCfg
    [(("drunk-model"), ("y")), (("class"), ("c"))]
    { name := ("model"), expression := ("y") }
    { priority := 8 } (by rfl)).1 rfl
  refine ⟨?_, h.2 ((("class"), ("c"))) (by simp) (by decide)⟩
  have h1 := h.1
  simpa [eraseAttr, mergeDescriptor, demoCfg] using h1

/-- `runPairs` walks the flat executor list exactly as the zipped
(live node, compiled pair) reference execution when the lengths agree. -/
theorem runPairs_eq_spec :
    ∀ (ns : List DNode) (exs : List (Option Executor)) (s : BSt),
      ns.length * 2 = exs.length →
      runPairs ns exs s = runPairsSpec (ns.zip (pairUp exs)) s := by
  intro ns
  induction ns with
  | nil =>
    intro exs s h
    match exs with
    | [] => simp [runPairs, runPairsSpec]
    | e :: r => simp at h
  | cons n ns ih =>
    intro exs s h
    match exs with
    | [] => simp at h
    | [e1] =>
      exfalso
      simp only [List.length_cons, List.length_nil] at h
      omega
    | e1 :: e2 :: rest =>
      have h' : ns.length * 2 = rest.length := by
        simp only [List.length_cons] at h
        omega
      have hp : pairUp (e1 :: e2 :: rest) = (e1, e2) :: pairUp rest := rfl
      rw [hp, List.zip_cons_cons]
      simp only [runPairs, runPairsSpec]
      cases h1 : runOptExec e1 (.one n) s with
      | mk s1 err1 =>
        cases err1 with
        | none =>
          cases h2 : runOptExec e2 (.many n.childrenOf) s1 with
          | mk s2 err2 =>
            cases err2 with
            | none =>
              simp only [h1, h2]
              exact ih rest s2 h'
            | some e => simp only [h1, h2]
        | some e => simp only [h1]

/-- C3: executing a combined node-collection unit first checks
`nodes.length * 2 !== executors.length`; a mismatch raises the
structural-mismatch error with the ledger untouched (no binding installed),
and agreeing lengths proceed to execute each compiled pair against its
corresponding live node. -/
theorem combined_unit_structural_check
    (exs : List (Option Executor)) (ns : List DNode) (s : BSt) :
    (ns.length * 2 ≠ exs.length →
      runExec (.nodes exs) (.many ns) s = (s, some .structuralMismatch))
    ∧ (ns.length * 2 = exs.length →
      runExec (.nodes exs) (.many ns) s = runPairsSpec (ns.zip (pairUp exs)) s) := by
  constructor
  · intro h
    simp [runExec, h]
  · intro h
    simp only [runExec, h]
    simp [runPairs_eq_spec ns exs s h]

/-- Witness for C3: a two-pair unit against an empty live collection raises
the mismatch with the state unchanged; against a matching two-node collection
it runs the pairs (here: no leaf executors, so the state is unchanged and no
error is raised). -/
theorem combined_unit_structural_check_witness :
    runExec (.nodes [none, none, none, none]) (.many []) { ledger := [], nextId := 0 } =
      ({ ledger := [], nextId := 0 }, some .structuralMismatch)
    ∧ runExec (.nodes [none, none, none, none]) (.many [.other, .other])
        { ledger := [], nextId := 0 } =
      ({ ledger := [], nextId := 0 }, none) := by
  constructor
  · exact (combined_unit_structural_check [none, none, none, none] [] _).1 (by simp)
  · have h := (combined_unit_structural_check [none, none, none, none] [.other, .other]
      { ledger := [], nextId := 0 }).2 (by simp)
    rw [h]
    simp [pairUp, runPairsSpec, runOptExec]

/-- `insertExec` inserts the new element somewhere in the list: the result is
a permutation of the element consed on. -/
theorem insertExec_perm (x : Executor) (l : List Executor) :
    (insertExec x l).Perm (x :: l) := by
  induction l with
  | nil => simp [insertExec]
  | cons y ys ih =>
    simp only [insertExec]
    split
    · exact (ih.cons y).trans (List.Perm.swap x y ys)
    · exact List.Perm.refl _

/-- `insertExec` preserves the descending-priority invariant. -/
theorem insertExec_pairwise (x : Executor) (l : List Executor)
    (h : l.Pairwise (fun a b => b.priorityOf ≤ a.priorityOf)) :
    (insertExec x l).Pairwise (fun a b => b.priorityOf ≤ a.priorityOf) := by
  induction l with
  | nil => simp [insertExec]
  | cons y ys ih =>
    rw [List.pairwise_cons] at h
    simp only [insertExec]
    split
    · rename_i hyx
      rw [List.pairwise_cons]
      refine ⟨?_, ih h.2⟩
      intro z hz
      have hz' := (insertExec_perm x ys).mem_iff.mp hz
      rcases List.mem_cons.mp hz' with rfl | hz''
      · exact hyx
      · exact h.1 z hz''
    · rename_i hyx
      push_neg at hyx
      rw [List.pairwise_cons]
      refine ⟨?_, List.pairwise_cons.mpr h⟩
      intro z hz
      rcases List.mem_cons.mp hz with rfl | hz'
      · exact le_of_lt hyx
      · exact le_of_lt (lt_of_le_of_lt (h.1 z hz') hyx)

/-- On a descending-priority list, a filter for one priority value sees the
newly inserted element last: insertion is stable. -/
theorem insertExec_filter (p : Int) (x : Executor) (l : List Executor)
    (h : l.Pairwise (fun a b => b.priorityOf ≤ a.priorityOf)) :
    (insertExec x l).filter (fun e => e.priorityOf == p) =
      (if x.priorityOf == p then
        l.filter (fun e => e.priorityOf == p) ++ [x]
      else l.filter (fun e => e.priorityOf == p)) := by
  induction l with
  | nil =>
    simp only [insertExec, List.filter]
    split <;> rename_i hc <;> simp [List.filter, hc]
  | cons y ys ih =>
    rw [List.pairwise_cons] at h
    simp only [insertExec]
    split
    · rename_i hyx
      by_cases hy : (y.priorityOf == p) = true
      · simp only [List.filter_cons, hy, ih h.2]
        by_cases hx2 : x.priorityOf = p <;> simp [hx2]
      · simp only [List.filter_cons, hy, ih h.2]
        by_cases hx2 : x.priorityOf = p <;> simp [hx2]
    · rename_i hyx
      push_neg at hyx
      by_cases hx : (x.priorityOf == p) = true
      · have hxp : x.priorityOf = p := by simpa using hx
        have hnil : (y :: ys).filter (fun e => e.priorityOf == p) = [] := by
          rw [List.filter_eq_nil_iff]
          intro z hz
          rcases List.mem_cons.mp hz with rfl | hz'
          · simp only [beq_iff_eq]
            omega
          · have : z.priorityOf ≤ y.priorityOf := h.1 z hz'
            simp only [beq_iff_eq]
            omega
        simp only [hx, if_pos]
        rw [hnil, List.filter_cons, hx, List.nil_append]
        rw [show ((y :: ys).filter (fun e => e.priorityOf == p)) = [] from hnil]
        simp
      · simp [List.filter_cons, hx]

/-- The insertion fold over any descending accumulator: permutation. -/
theorem foldl_insert_perm (l acc : List Executor) :
    (l.foldl (fun a x => insertExec x a) acc).Perm (acc ++ l) := by
  induction l generalizing acc with
  | nil => simp
  | cons a l' ih =>
    simp only [List.foldl_cons]
    have h1 := ih (insertExec a acc)
    have h2 : (insertExec a acc ++ l').Perm ((a :: acc) ++ l') :=
      (insertExec_perm a acc).append_right l'
    have h3 : ((a :: acc) ++ l').Perm (acc ++ a :: l') := by
      simpa using (@List.perm_middle _ a acc l').symm
    exact (h1.trans h2).trans h3

/-- The insertion fold preserves the descending-priority invariant. -/
theorem foldl_insert_pairwise (l acc : List Executor)
    (h : acc.Pairwise (fun a b => b.priorityOf ≤ a.priorityOf)) :
    (l.foldl (fun a x => insertExec x a) acc).Pairwise
      (fun a b => b.priorityOf ≤ a.priorityOf) := by
  induction l generalizing acc with
  | nil => simpa
  | cons a l' ih => exact ih (insertExec a acc) (insertExec_pairwise a acc h)

/-- The insertion fold is stable: per-priority filters concatenate. -/
theorem foldl_insert_filter (p : Int) (l acc : List Executor)
    (h : acc.Pairwise (fun a b => b.priorityOf ≤ a.priorityOf)) :
    (l.foldl (fun a x => insertExec x a) acc).filter (fun e => e.priorityOf == p) =
      acc.filter (fun e => e.priorityOf == p) ++ l.filter (fun e => e.priorityOf == p) := by
  induction l generalizing acc with
  | nil => simp
  | cons a l' ih =>
    simp only [List.foldl_cons]
    rw [ih (insertExec a acc) (insertExec_pairwise a acc h)]
    rw [insertExec_filter p a acc h]
    by_cases ha : (a.priorityOf == p) = true
    · simp [List.filter_cons, ha]
    · simp [List.filter_cons, ha]

/-- C4: on an element with two or more resolved non-terminal descriptors, the
combined unit invokes the executors in the order `sortExecs` produces, which
is a stable descending-priority sort of the scan order: priorities are
pairwise non-increasing, elements of equal priority keep their scan order
(equal per-priority filters), and the sorted list is a permutation of the
scanned one. -/
theorem normal_binding_stable_priority_order
    (P : Tokenizer) (reg : Registry) (cfg : DrunkConfig)
    (attrs attrs2 : List (String × String)) (es : List Executor)
    (hscan : scanBindings P reg cfg attrs = .ok (attrs2, es))
    (hlen : 2 ≤ es.length) :
    processNormalBinding P reg cfg attrs = .ok (attrs2, some (.seq (sortExecs es)))
    ∧ (sortExecs es).Pairwise (fun a b => b.priorityOf ≤ a.priorityOf)
    ∧ (∀ p : Int, (sortExecs es).filter (fun e => e.priorityOf == p) =
        es.filter (fun e => e.priorityOf == p))
    ∧ (sortExecs es).Perm es := by
  refine ⟨?_, ?_, ?_, ?_⟩
  · have hne : es.length ≠ 0 := by omega
    simp [processNormalBinding, hscan, hne, bind, Except.bind]
  · exact foldl_insert_pairwise es [] (by simp)
  · intro p
    simpa using foldl_insert_filter p es [] (by simp)
  · simpa using foldl_insert_perm es []

/-- Witness for C4: `drunk-on` (priority 3) declared before `drunk-model`
(priority 8) still executes after it; the scan collects them in declaration
order and the combined unit runs the model binding first. -/
theorem normal_binding_stable_priority_order_witness :
    processNormalBinding demoTokenizer demoRegistry demoCfg
        [(("drunk-on"), ("a")), (("drunk-model"), ("b"))] =
      .ok ([],
        some (.seq [.leaf { name := ("model"), expression := ("b") } 8,
          .leaf { name := ("on"), expression := ("a") } 3])) := by
  have h := (normal_binding_stable_priority_order demoTokenizer demoRegistry demoCfg
    [(("drunk-on"), ("a")), (("drunk-model"), ("b"))] []
    [.leaf { name := ("on"), expression := ("a") } 3,
      .leaf { name := ("model"), expression := ("b") } 8]
    (by rfl) (by simp)).1
  rw [h]
  rfl

/-- Ledger-state extension is reflexive. -/
theorem stext_refl (s : BSt) : StExt s s :=
  ⟨Nat.le_refl _, [], by simp, by simp⟩

/-- Ledger-state extension composes. -/
theorem stext_trans {s1 s2 s3 : BSt} (h1 : StExt s1 s2) (h2 : StExt s2 s3) :
    StExt s1 s3 := by
  obtain ⟨hn1, X1, hl1, hf1⟩ := h1
  obtain ⟨hn2, X2, hl2, hf2⟩ := h2
  refine ⟨Nat.le_trans hn1 hn2, X1 ++ X2, ?_, ?_⟩
  · rw [hl2, hl1, List.append_assoc]
  · intro x hx
    rcases List.mem_append.mp hx with h | h
    · exact hf1 x h
    · exact Nat.le_trans hn1 (hf2 x h)

/-- `Binding.create` appends one fresh binding: an extension step. -/
theorem stext_create (s : BSt) : StExt s (bindingCreate s) := by
  refine ⟨Nat.le_succ _, [s.nextId], rfl, ?_⟩
  intro x hx
  simp at hx
  omega

/-- Sequential execution over one element only extends the ledger, given the
member executors do. -/
theorem runSeq_ext (t : LiveTarget) (es : List Executor)
    (IH : ∀ e ∈ es, ∀ (t' : LiveTarget) (s' : BSt), StExt s' (runExec e t' s').1) :
    ∀ s : BSt, StExt s (runSeq es t s).1 := by
  induction es with
  | nil =>
    intro s
    simp only [runSeq]
    exact stext_refl s
  | cons e rest ih =>
    intro s
    have he := IH e (by simp) t s
    cases h1 : runExec e t s with
    | mk s1 err =>
      rw [h1] at he
      cases err with
      | none =>
        simp only [runSeq, h1]
        exact stext_trans he (ih (fun e' he' t' s' => IH e' (by simp [he']) t' s') s1)
      | some e2 =>
        simp only [runSeq, h1]
        exact he

/-- Token-slot execution of a text-node unit only extends the ledger. -/
theorem runToks_ext (toks : List (Option Executor))
    (IH : ∀ e, some e ∈ toks → ∀ (t' : LiveTarget) (s' : BSt), StExt s' (runExec e t' s').1) :
    ∀ s : BSt, StExt s (runToks toks s).1 := by
  induction toks with
  | nil =>
    intro s
    simp only [runToks]
    exact stext_refl s
  | cons o rest ih =>
    intro s
    cases o with
    | none =>
      simp only [runToks]
      exact ih (fun e he t' s' => IH e (by simp [he]) t' s') s
    | some e =>
      have he := IH e (by simp) (.one (DNode.text (" "))) s
      cases h1 : runExec e (.one (DNode.text (" "))) s with
      | mk s1 err =>
        rw [h1] at he
        cases err with
        | none =>
          simp only [runToks, h1]
          exact stext_trans he (ih (fun e' he' t' s' => IH e' (by simp [he']) t' s') s1)
        | some e2 =>
          simp only [runToks, h1]
          exact he

/-- Running an optional executor only extends the ledger, given the wrapped
executor does. -/
theorem runOpt_ext_of (o : Option Executor)
    (H : ∀ e, o = some e → ∀ (t' : LiveTarget) (s' : BSt), StExt s' (runExec e t' s').1) :
    ∀ (t : LiveTarget) (s : BSt), StExt s (runOptExec o t s).1 := by
  cases o with
  | none =>
    intro t s
    simp only [runOptExec]
    exact stext_refl s
  | some e =>
    intro t s
    simp only [runOptExec]
    exact H e rfl t s

/-- The pairwise walk of a combined node-collection unit only extends the
ledger, given the member executors do. -/
theorem runPairs_ext :
    ∀ (ns : List DNode) (exs : List (Option Executor)),
      (∀ e, some e ∈ exs → ∀ (t' : LiveTarget) (s' : BSt), StExt s' (runExec e t' s').1) →
      ∀ s : BSt, StExt s (runPairs ns exs s).1 := by
  intro ns
  induction ns with
  | nil =>
    intro exs IH s
    simp only [runPairs]
    exact stext_refl s
  | cons n rest ih =>
    intro exs IH s
    match exs with
    | [] =>
      simp only [runPairs]
      exact stext_refl s
    | [e1] =>
      simp only [runPairs]
      exact stext_refl s
    | e1 :: e2 :: r =>
      cases h1 : runOptExec e1 (.one n) s with
      | mk s1 err1 =>
        have he1 : StExt s s1 := by
          have h := runOpt_ext_of e1 (fun e he t' s' => IH e (by simp [he]) t' s') (.one n) s
          rw [h1] at h
          exact h
        cases err1 with
        | some e =>
          simp only [runPairs, h1]
          exact he1
        | none =>
          cases h2 : runOptExec e2 (.many n.childrenOf) s1 with
          | mk s2 err2 =>
            have he2 : StExt s1 s2 := by
              have h := runOpt_ext_of e2 (fun e he t' s' => IH e (by simp [he]) t' s')
                (.many n.childrenOf) s1
              rw [h2] at h
              exact h
            cases err2 with
            | some e =>
              simp only [runPairs, h1, h2]
              exact stext_trans he1 he2
            | none =>
              simp only [runPairs, h1, h2]
              refine stext_trans he1 (stext_trans he2 ?_)
              exact ih r (fun e he t' s' => IH e (by simp [he]) t' s') s2

/-- Executing any compiled unit only appends fresh bindings to the ledger. -/
theorem runExec_ext : ∀ (e : Executor) (t : LiveTarget) (s : BSt), StExt s (runExec e t s).1 := by
  suffices H : ∀ (n : Nat) (e : Executor), sizeOf e ≤ n →
      ∀ (t : LiveTarget) (s : BSt), StExt s (runExec e t s).1 by
    intro e t s
    exact H (sizeOf e) e (Nat.le_refl _) t s
  intro n
  induction n with
  | zero =>
    intro e he
    exfalso
    cases e <;> simp at he <;> omega
  | succ n ih =>
    intro e he t s
    cases e with
    | leaf d p =>
      simp only [runExec]
      exact stext_create s
    | seq es =>
      simp only [runExec]
      refine runSeq_ext t es ?_ s
      intro e' he' t' s'
      refine ih e' ?_ t' s'
      have h1 : sizeOf e' < sizeOf es := List.sizeOf_lt_of_mem he'
      have h2 : sizeOf (Executor.seq es) = 1 + sizeOf es := by simp
      omega
    | textareaWrap inner =>
      cases inner with
      | none =>
        simp only [runExec]
        exact stext_refl s
      | some e' =>
        simp only [runExec]
        refine ih e' ?_ t s
        have h2 : sizeOf (Executor.textareaWrap (some e')) = 1 + (1 + sizeOf e') := by simp
        omega
    | textNode toks =>
      simp only [runExec]
      refine runToks_ext toks ?_ s
      intro e' he' t' s'
      refine ih e' ?_ t' s'
      have h1 : sizeOf (some e') < sizeOf toks := List.sizeOf_lt_of_mem he'
      have h2 : sizeOf (some e') = 1 + sizeOf e' := by simp
      have h3 : sizeOf (Executor.textNode toks) = 1 + sizeOf toks := by simp
      omega
    | nodes exs =>
      cases t with
      | one n' =>
        simp only [runExec]
        exact stext_refl s
      | many ns =>
        simp only [runExec]
        split
        · exact stext_refl s
        · refine runPairs_ext ns exs ?_ s
          intro e' he' t' s'
          refine ih e' ?_ t' s'
          have h1 : sizeOf (some e') < sizeOf exs := List.sizeOf_lt_of_mem he'
          have h2 : sizeOf (some e') = 1 + sizeOf e' := by simp
          have h3 : sizeOf (Executor.nodes exs) = 1 + sizeOf exs := by simp
          omega

/-- Running an optional executor only appends fresh bindings. -/
theorem runOptExec_ext (o : Option Executor) (t : LiveTarget) (s : BSt) :
    StExt s (runOptExec o t s).1 :=
  runOpt_ext_of o (fun e _ t' s' => runExec_ext e t' s') t s

/-- A successful `executeCompiled` appends exactly its owned slice, and every
owned binding is fresh. -/
theorem executeCompiled_success
    (prog : CompiledProgram) (live : LiveTarget) (s s2 : BSt) (X : List Nat)
    (h : executeCompiled prog live s = (s2, none, X)) :
    s2.ledger = s.ledger ++ X ∧ (∀ x ∈ X, s.nextId ≤ x) ∧ s.nextId ≤ s2.nextId := by
  cases h1 : runOptExec prog.executor live s with
  | mk s1 err1 =>
    have he1 : StExt s s1 := by
      have hx := runOptExec_ext prog.executor live s
      rw [h1] at hx
      exact hx
    cases err1 with
    | some e => simp [executeCompiled, h1] at h
    | none =>
      cases h2 : runOptExec prog.childExecutor (childTarget live) s1 with
      | mk s2' err2 =>
        have he2 : StExt s1 s2' := by
          have hx := runOptExec_ext prog.childExecutor (childTarget live) s1
          rw [h2] at hx
          exact hx
        cases err2 with
        | some e => simp [executeCompiled, h1, h2] at h
        | none =>
          simp only [executeCompiled, h1, h2, Prod.mk.injEq] at h
          obtain ⟨hs, _, hX⟩ := h
          obtain ⟨hn, Z, hl, hf⟩ := stext_trans he1 he2
          have hZ : List.drop s.ledger.length s2'.ledger = Z := by
            rw [hl]
            exact List.drop_left s.ledger Z
          subst hs
          rw [← hX, hZ]
          exact ⟨hl, hf, hn⟩

/-- `splice` with delete-count 0 returns the array unchanged (the disposal
path for an empty owned slice, where `indexOf(undefined)` yields `-1`). -/
theorem jsSplice_count_zero (l : List Nat) (st : Int) : jsSplice l st 0 = l := by
  unfold jsSplice
  rw [Nat.add_zero]
  exact List.take_append_drop _ l

/-- `indexOf` relocates the first occurrence after an unrelated prefix. -/
theorem firstIdx_append {h : Nat} {L : List Nat} (hne : h ∉ L) (r : List Nat) :
    firstIdxAux h (L ++ h :: r) = some L.length := by
  induction L with
  | nil => simp [firstIdxAux]
  | cons y L' ih =>
    have hy : y ≠ h := by
      intro e
      exact hne (by simp [e])
    have hne' : h ∉ L' := fun m => hne (List.mem_cons_of_mem y m)
    have step : firstIdxAux h ((y :: L') ++ h :: r) =
        (firstIdxAux h (L' ++ h :: r)).map (fun n => n + 1) := by
      rw [List.cons_append]
      rw [show firstIdxAux h (y :: (L' ++ h :: r)) =
        (if y = h then some 0 else (firstIdxAux h (L' ++ h :: r)).map (fun n => n + 1)) from rfl]
      rw [if_neg hy]
    rw [step, ih hne']
    simp

/-- The splice start index computed from the length of a prefix is exactly
that length. -/
theorem jsSpliceStart_len (L R : List Nat) :
    jsSpliceStart (L ++ R) (L.length : Int) = L.length := by
  unfold jsSpliceStart
  have hneg : ¬((L.length : Int) < 0) := by omega
  rw [if_neg hneg]
  have hlen : ((L ++ R).length : Int) = (L.length : Int) + (R.length : Int) := by
    rw [List.length_append]
    push_cast
    omega
  have hmin : min ((L.length : Nat) : Int) (((L ++ R).length : Nat) : Int) =
      ((L.length : Nat) : Int) := by
    rw [hlen]
    omega
  rw [hmin]
  exact Int.toNat_natCast _

/-- `splice` starting at the length of the prefix removes exactly the middle
block. -/
theorem jsSplice_exact (L M R : List Nat) :
    jsSplice (L ++ M ++ R) (L.length : Int) M.length = L ++ R := by
  unfold jsSplice
  have hs : jsSpliceStart (L ++ M ++ R) (L.length : Int) = L.length := by
    rw [List.append_assoc]
    exact jsSpliceStart_len L (M ++ R)
  rw [hs]
  have htake : (L ++ M ++ R).take L.length = L := by
    rw [List.append_assoc]
    exact List.take_left L (M ++ R)
  have hdrop : (L ++ M ++ R).drop (L.length + M.length) = R := by
    have hlm : (L ++ M).length = L.length + M.length := by simp
    rw [← hlm]
    exact List.drop_left (L ++ M) R
  rw [htake, hdrop]

/-- C1: the disposer returned by one execution of a compiled binding program
removes exactly the live bindings owned by that execution and no others, even
after a later execution on the same view object appended further bindings: it
reports the dispose calls in creation order, relocates the first owned binding
by identity and splices out exactly the owned block, leaving the pre-existing
prefix and the later-appended bindings intact. -/
theorem dispose_removes_exactly_owned
    (progA progB : CompiledProgram) (liveA liveB : LiveTarget)
    (s0 s1 s2 : BSt) (X Y : List Nat)
    (hwf : LedgerFresh s0)
    (hA : executeCompiled progA liveA s0 = (s1, none, X))
    (hB : executeCompiled progB liveB s1 = (s2, none, Y)) :
    disposeOwned X s2.ledger = (X, s0.ledger ++ Y) := by
  obtain ⟨hXl, hXf, hXn⟩ := executeCompiled_success progA liveA s0 s1 X hA
  obtain ⟨hYl, hYf, hYn⟩ := executeCompiled_success progB liveB s1 s2 Y hB
  have hmain : jsSplice s2.ledger (jsIndexOfOpt s2.ledger X.head?) X.length =
      s0.ledger ++ Y := by
    cases X with
    | nil =>
      rw [show (([] : List Nat).length) = 0 from rfl, jsSplice_count_zero, hYl, hXl]
      simp
    | cons h tl =>
      have hne : h ∉ s0.ledger := by
        intro hmem
        have h1 := hwf h hmem
        have h2 := hXf h (by simp)
        omega
      have hshape : s2.ledger = s0.ledger ++ (h :: tl) ++ Y := by
        rw [hYl, hXl]
      have hshape2 : s2.ledger = s0.ledger ++ h :: (tl ++ Y) := by
        rw [hshape]
        simp
      have hidx : firstIdxAux h s2.ledger = some s0.ledger.length := by
        rw [hshape2]
        exact firstIdx_append hne (tl ++ Y)
      have hJ : jsIndexOfOpt s2.ledger ((h :: tl).head?) = (s0.ledger.length : Int) := by
        simp only [List.head?_cons, jsIndexOfOpt, hidx]
      rw [hJ, hshape]
      exact jsSplice_exact s0.ledger (h :: tl) Y
  unfold disposeOwned
  rw [hmain]

/-- Witness for C1: execute a one-binding program twice on the same fresh view
object; disposing the first execution's result removes binding 0 and leaves
binding 1. -/
theorem dispose_removes_exactly_owned_witness :
    disposeOwned [0] [0, 1] = ([0], [1]) := by
  have h := dispose_removes_exactly_owned
    { executor := some (.leaf { name := ("bind"), expression := ("e") } 0), childExecutor := none }
    { executor := some (.leaf { name := ("bind"), expression := ("e") } 0), childExecutor := none }
    (.one .other) (.one .other)
    { ledger := [], nextId := 0 } { ledger := [0], nextId := 1 }
    { ledger := [0, 1], nextId := 2 } [0] [1]
    (by intro x hx; simp at hx)
    (by simp [executeCompiled, runOptExec, runExec, bindingCreate, childTarget])
    (by simp [executeCompiled, runOptExec, runExec, bindingCreate, childTarget])
  simpa using h

/-- The terminal scan stops at the first falsy name and returns the
`createExecutor` result of the first terminal directive whose prefixed
attribute passes the truthiness test. -/
theorem terminalLoop_first (reg : Registry) (cfg : DrunkConfig)
    (attrs : List (String × String)) :
    ∀ (ts : List String) (k : Nat) (t e : String),
      ts.get? k = some t → t ≠ "" →
      (∀ j, j < k → ∀ t', ts.get? j = some t' →
        t' ≠ "" ∧ truthyAttr attrs (cfg.pfx ++ t') = none) →
      truthyAttr attrs (cfg.pfx ++ t) = some e →
      terminalLoop reg cfg attrs ts =
        createExecutor reg cfg true attrs { name := t, expression := e, isTerminal := true } := by
  intro ts
  induction ts with
  | nil =>
    intro k t e hk
    simp at hk
  | cons t0 rest ih =>
    intro k t e hk ht hearlier hmatch
    cases k with
    | zero =>
      simp only [List.get?] at hk
      obtain rfl : t0 = t := by injection hk
      simp only [terminalLoop]
      rw [if_neg ht, hmatch]
    | succ k' =>
      have h0 := hearlier 0 (Nat.succ_pos k') t0 rfl
      simp only [terminalLoop]
      rw [if_neg h0.1, h0.2]
      exact ih k' t e hk ht
        (fun j hj t' hj' => hearlier (j + 1) (by omega) t' hj') hmatch

/-- C2 counterexample: a TEXTAREA carrying the terminal `drunk-component`
attribute and another directive attribute.  The terminal match wins, but
`compileElement` then wraps it in the textarea eager-eval closure, which
carries no `isTerminal` tag, so `compile` still compiles the child subtree —
refuting "no child-subtree compilation happens at that level" (and the unit
produced is not tagged terminal). -/
theorem terminal_textarea_counterexample :
    compile demoTokenizer demoRegistry demoCfg
        (.node (.element ("TEXTAREA")
          [(("drunk-component"), ("x")), (("drunk-model"), ("y"))]
          [DNode.text ("hi")])) =
      .ok { executor := some (.textareaWrap (some (.leaf { name := ("component"), expression := ("x"), isTerminal := true } 5))), childExecutor := some (.nodes [none, none]) }
    ∧ (Executor.textareaWrap (some (.leaf { name := ("component"), expression := ("x"), isTerminal := true } 5))).isTerminalTag = false := by
  constructor
  · simp [compile, compileNode, compileElement, compileNodeList, compileListAux,
      processTerminalBinding, terminalLoop, truthyAttr, getAttr, createExecutor,
      demoRegistry, demoCfg, demoTokenizer, mergeDescriptor, wrapTextarea,
      compileTextNode, idxAux, leadsWith, Executor.isTerminalTag, optTerminalTag,
      DNode.hasChildNodes, DNode.childrenOf, DNode.setChildren, DNode.tagOf,
      eraseAttr, bind, Except.bind]
  · rfl

/-- C2 (amended): on any element that is neither SCRIPT nor TEXTAREA and
carries a truthy terminal directive attribute, the registry's terminal names
are tested in their fixed order, the first truthy match wins, `compile`
produces exactly that single terminal unit, and no child-subtree compilation
happens at that level. -/
theorem terminal_first_match_wins
    (P : Tokenizer) (reg : Registry) (cfg : DrunkConfig)
    (tag : String) (attrs : List (String × String)) (children : List DNode)
    (k : Nat) (t e : String) (defn : BindingDefinition)
    (hk : reg.terminals.get? k = some t) (ht : t ≠ "")
    (hearlier : ∀ j, j < k → ∀ t', reg.terminals.get? j = some t' →
      t' ≠ "" ∧ truthyAttr attrs (cfg.pfx ++ t') = none)
    (hmatch : truthyAttr attrs (cfg.pfx ++ t) = some e)
    (hdef : reg.definitions t = some defn)
    (hterm : defn.isTerminal ≠ some false)
    (hscript : tag ≠ ("SCRIPT")) (hta : tag ≠ ("TEXTAREA")) :
    compile P reg cfg (.node (.element tag attrs children)) =
      .ok { executor := some (.leaf (mergeDescriptor { name := t, expression := e, isTerminal := true } defn) defn.priority), childExecutor := none } := by
  have hattrs : attrs.isEmpty = false := by
    cases attrs with
    | nil => simp [truthyAttr, getAttr] at hmatch
    | cons a r => rfl
  have hloop : processTerminalBinding reg cfg attrs =
      createExecutor reg cfg true attrs { name := t, expression := e, isTerminal := true } :=
    terminalLoop_first reg cfg attrs reg.terminals k t e hk ht hearlier hmatch
  have hterm2 : (mergeDescriptor { name := t, expression := e, isTerminal := true } defn).isTerminal = true := by
    unfold mergeDescriptor
    cases hdt : defn.isTerminal with
    | none => rfl
    | some b =>
      cases b with
      | false => exact absurd hdt hterm
      | true => rfl
  have hel : compileElement P reg cfg tag attrs =
      .ok ((if !defn.retainAttribute && true then eraseAttr attrs (cfg.pfx ++ t) else attrs),
        some (.leaf (mergeDescriptor { name := t, expression := e, isTerminal := true } defn) defn.priority)) := by
    simp only [compileElement, hattrs, Bool.false_eq_true, if_false, hloop,
      createExecutor, hdef, bind, Except.bind, wrapTextarea, if_neg hta]
  simp only [compile, compileNode, if_neg hscript, hel, bind, Except.bind,
    optTerminalTag, Executor.isTerminalTag, hterm2, Bool.not_true, Bool.false_and,
    Bool.false_eq_true, if_false]

/-- Witness for C2 (amended): `drunk-component` on a DIV that also carries
`drunk-model` yields the single terminal component unit and no child unit. -/
theorem terminal_first_match_wins_witness :
    compile demoTokenizer demoRegistry demoCfg
        (.node (.element ("DIV")
          [(("drunk-component"), ("x")), (("drunk-model"), ("y"))]
          [DNode.text ("hi")])) =
      .ok { executor := some (.leaf { name := ("component"), expression := ("x"), isTerminal := true } 5), childExecutor := none } := by
  have h := terminal_first_match_wins demoTokenizer demoRegistry demoCfg
    ("DIV") [(("drunk-component"), ("x")), (("drunk-model"), ("y"))] [DNode.text ("hi")]
    0 ("component") ("x") { priority := 5, retainAttribute := false, isTerminal := some true }
    (by rfl) (by decide)
    (by intro j hj t' hj'; exact absurd hj (Nat.not_lt_zero j))
    (by rfl) (by rfl) (by simp) (by decide) (by decide)
  rw [h]
  rfl

/-- When no terminal name up to the first falsy entry passes the truthiness
test, the terminal scan produces nothing and leaves the element untouched. -/
theorem terminalLoop_none (reg : Registry) (cfg : DrunkConfig)
    (attrs : List (String × String)) :
    ∀ ts : List String,
      (∀ t' ∈ ts, truthyAttr attrs (cfg.pfx ++ t') = none) →
      terminalLoop reg cfg attrs ts = .ok (attrs, none) := by
  intro ts
  induction ts with
  | nil => intro h; rfl
  | cons t0 rest ih =>
    intro h
    simp only [terminalLoop]
    by_cases h0 : t0 = ""
    · rw [if_pos h0]
    · rw [if_neg h0, h t0 (by simp)]
      exact ih (fun t' ht' => h t' (by simp [ht']))

/-- The combined unit of a normal attribute scan is never tagged terminal
(it is a `seq` closure, or absent). -/
theorem processNormal_not_terminal (P : Tokenizer) (reg : Registry) (cfg : DrunkConfig)
    (attrs a : List (String × String)) (o : Option Executor)
    (h : processNormalBinding P reg cfg attrs = .ok (a, o)) :
    optTerminalTag o = false := by
  unfold processNormalBinding at h
  cases hs : scanBindings P reg cfg attrs with
  | error e =>
    rw [hs] at h
    simp [bind, Except.bind] at h
  | ok p =>
    rw [hs] at h
    obtain ⟨a2, es⟩ := p
    simp only [bind, Except.bind] at h
    by_cases hlen : es.length ≠ 0
    · rw [if_pos hlen] at h
      simp only [Except.ok.injEq, Prod.mk.injEq] at h
      rw [← h.2]
      rfl
    · rw [if_neg hlen] at h
      simp only [Except.ok.injEq, Prod.mk.injEq] at h
      rw [← h.2]
      rfl

/-- The textarea wrapper never restores a terminal tag. -/
theorem wrapTextarea_not_terminal (tag : String) (o : Option Executor)
    (ho : optTerminalTag o = false) :
    optTerminalTag (wrapTextarea tag o) = false := by
  unfold wrapTextarea
  split
  · rfl
  · exact ho

/-- C10: a terminal directive attribute whose value is the empty string fails
the truthiness test: terminal detection does not match, the element is
compiled by the normal attribute scan, and (absent another terminal match)
`compile` still compiles the children. -/
theorem empty_terminal_attr_skipped
    (P : Tokenizer) (reg : Registry) (cfg : DrunkConfig)
    (tag : String) (attrs : List (String × String)) (children : List DNode)
    (t0 : String)
    (hmem : t0 ∈ reg.terminals)
    (hempty : getAttr attrs (cfg.pfx ++ t0) = some (""))
    (hnone : ∀ t' ∈ reg.terminals, truthyAttr attrs (cfg.pfx ++ t') = none)
    (attrs2 : List (String × String)) (exOpt : Option Executor)
    (hscan : processNormalBinding P reg cfg attrs = .ok (attrs2, exOpt))
    (hscript : tag ≠ ("SCRIPT"))
    (children2 : List DNode) (cex : Option Executor)
    (hchild : compileNodeList P reg cfg children = .ok (children2, cex))
    (hchildren : children ≠ []) :
    processTerminalBinding reg cfg attrs = .ok (attrs, none)
    ∧ compileElement P reg cfg tag attrs = .ok (attrs2, wrapTextarea tag exOpt)
    ∧ compile P reg cfg (.node (.element tag attrs children)) =
        .ok { executor := wrapTextarea tag exOpt, childExecutor := cex } := by
  have hattrs : attrs.isEmpty = false := by
    cases attrs with
    | nil => simp [getAttr] at hempty
    | cons a r => rfl
  have hterm : processTerminalBinding reg cfg attrs = .ok (attrs, none) :=
    terminalLoop_none reg cfg attrs reg.terminals hnone
  have hel : compileElement P reg cfg tag attrs = .ok (attrs2, wrapTextarea tag exOpt) := by
    simp only [compileElement, hattrs, Bool.false_eq_true, if_false, hterm,
      hscan, bind, Except.bind]
  have hnt : optTerminalTag (wrapTextarea tag exOpt) = false :=
    wrapTextarea_not_terminal tag exOpt
      (processNormal_not_terminal P reg cfg attrs attrs2 exOpt hscan)
  refine ⟨hterm, hel, ?_⟩
  have hch : (DNode.element tag attrs2 children).hasChildNodes = true := by
    simp [DNode.hasChildNodes, DNode.childrenOf, hchildren]
  have htg : ¬((DNode.element tag attrs2 children).tagOf = some ("SCRIPT")) := by
    simp [DNode.tagOf, hscript]
  simp only [compile, compileNode, if_neg hscript, hel, bind, Except.bind,
    hnt, htg, hch, Bool.not_false, Bool.true_and, DNode.childrenOf, hchild,
    Bool.and_true, Bool.and_self, if_true, Bool.true_eq_false]
  simp [hnt, htg, hch, hchild, DNode.childrenOf, bind, Except.bind]

/-- Witness for C10: `drunk-component=""` on a DIV is skipped by terminal
detection; the normal scan still resolves `drunk-component` and `drunk-model`
as ordinary bindings, and the text child is compiled into the child-level
unit. -/
theorem empty_terminal_attr_skipped_witness :
    compile demoTokenizer demoRegistry demoCfg
        (.node (.element ("DIV")
          [(("drunk-component"), ("")), (("drunk-model"), ("y"))]
          [DNode.text ("hi")])) =
      .ok { executor := some (.seq [.leaf { name := ("model"), expression := ("y") } 8, .leaf { name := ("component"), expression := (""), isTerminal := true } 5]), childExecutor := some (.nodes [none, none]) } := by
  have h := (empty_terminal_attr_skipped demoTokenizer demoRegistry demoCfg
    ("DIV") [(("drunk-component"), ("")), (("drunk-model"), ("y"))] [DNode.text ("hi")]
    ("component") (by simp [demoRegistry]) (by rfl)
    (by intro t' ht'; simp [demoRegistry] at ht'; subst ht'; rfl)
    [] (some (.seq [.leaf { name := ("model"), expression := ("y") } 8, .leaf { name := ("component"), expression := (""), isTerminal := true } 5]))
    (by rfl) (by decide)
    [DNode.text ("hi")] (some (.nodes [none, none]))
    (by simp [compileNodeList, compileListAux, compileNode, compileTextNode,
      demoTokenizer, idxAux, leadsWith, DNode.hasChildNodes, DNode.childrenOf,
      bind, Except.bind])
    (by simp)).2.2
  rw [h]
  rfl

/-- C9 counterexample: a fully static subtree (DIV with one static SPAN child,
no attributes, no interpolation) does NOT compile to "no Compiled Unit": the
child collection yields a combined node-collection unit (which installs
nothing but still checks the live length), so the compile result is not
absent. -/
theorem static_list_produces_unit :
    compile demoTokenizer demoRegistry demoCfg
        (.node (.element ("DIV") [] [DNode.element ("SPAN") [] []])) =
      .ok { executor := none, childExecutor := some (.nodes [none, none]) }
    ∧ some (Executor.nodes [none, none]) ≠ (none : Option Executor) := by
  constructor
  · simp [compile, compileNode, compileElement, compileNodeList, compileListAux,
      wrapTextarea, optTerminalTag, DNode.hasChildNodes, DNode.childrenOf,
      DNode.setChildren, DNode.tagOf, bind, Except.bind]
  · simp

/-- A static attribute list passes through the normal scan untouched and
collects no executors. -/
theorem static_scan (P : Tokenizer) (reg : Registry) (cfg : DrunkConfig)
    (attrs : List (String × String)) (h : staticAttrs P cfg attrs = true) :
    scanBindings P reg cfg attrs = .ok (attrs, []) := by
  have main : ∀ (l : List (String × String)) (acc : List (String × String) × List Executor),
      (∀ a ∈ l,
        (!(decide ((-1 : Int) < strIndexOf a.1 cfg.pfx ∧
            strIndexOf a.1 cfg.pfx < ((a.1.length : Nat) : Int) - 1)) &&
          !P.hasInterpolation a.2) = true) →
      l.foldlM (scanStep P reg cfg) acc = .ok acc := by
    intro l
    induction l with
    | nil => intro acc _; rfl
    | cons a rest ih =>
      intro acc hall
      have ha := hall a (by simp)
      rw [Bool.and_eq_true] at ha
      have hcond : ¬((-1 : Int) < strIndexOf a.1 cfg.pfx ∧
          strIndexOf a.1 cfg.pfx < ((a.1.length : Nat) : Int) - 1) := by
        have hb := ha.1
        rw [Bool.not_eq_true'] at hb
        exact of_decide_eq_false hb
      have hinterp : P.hasInterpolation a.2 = false := by
        have := ha.2
        simpa using this
      simp only [List.foldlM]
      rw [show scanStep P reg cfg acc a = .ok acc from by
        simp only [scanStep, hinterp, if_neg hcond, Bool.false_eq_true, if_false]]
      exact ih acc (fun a' ha' => hall a' (by simp [ha']))
  unfold staticAttrs at h
  rw [List.all_eq_true] at h
  exact main attrs (attrs, []) h

/-- A static attribute list produces no combined normal unit. -/
theorem static_processNormal (P : Tokenizer) (reg : Registry) (cfg : DrunkConfig)
    (attrs : List (String × String)) (h : staticAttrs P cfg attrs = true) :
    processNormalBinding P reg cfg attrs = .ok (attrs, none) := by
  simp [processNormalBinding, static_scan P reg cfg attrs h, bind, Except.bind]

/-- Without any truthy terminal attribute the terminal scan yields nothing. -/
theorem static_processTerminal (reg : Registry) (cfg : DrunkConfig)
    (attrs : List (String × String)) (h : noTerminalMatch reg cfg attrs = true) :
    processTerminalBinding reg cfg attrs = .ok (attrs, none) := by
  unfold noTerminalMatch at h
  rw [List.all_eq_true] at h
  refine terminalLoop_none reg cfg attrs reg.terminals ?_
  intro t' ht'
  have := h t' ht'
  simpa [Option.isNone_iff_eq_none] using this

/-- A static non-textarea element compiles to no unit and is left unchanged. -/
theorem static_compileElement (P : Tokenizer) (reg : Registry) (cfg : DrunkConfig)
    (tag : String) (attrs : List (String × String))
    (hta : tag ≠ ("TEXTAREA"))
    (hA : staticAttrs P cfg attrs = true) (hT : noTerminalMatch reg cfg attrs = true) :
    compileElement P reg cfg tag attrs = .ok (attrs, none) := by
  by_cases he : attrs.isEmpty = true
  · simp [compileElement, he, wrapTextarea, if_neg hta, bind, Except.bind]
  · have he' : attrs.isEmpty = false := by
      cases hh : attrs.isEmpty
      · rfl
      · exact absurd hh he
    simp [compileElement, he', static_processTerminal reg cfg attrs hT,
      static_processNormal P reg cfg attrs hA, wrapTextarea, if_neg hta,
      bind, Except.bind]

/-- A static node compiles to no unit and is left unchanged. -/
theorem static_compileNode (P : Tokenizer) (reg : Registry) (cfg : DrunkConfig)
    (n : DNode) (h : staticNode P reg cfg n = true) :
    compileNode P reg cfg n = .ok (n, none) := by
  cases n with
  | element tag attrs cs =>
    simp only [staticNode, Bool.and_eq_true, decide_eq_true_eq] at h
    obtain ⟨⟨⟨hta, hA⟩, hT⟩, _⟩ := h
    by_cases hs : tag = ("SCRIPT")
    · simp [compileNode, hs]
    · simp [compileNode, if_neg hs,
        static_compileElement P reg cfg tag attrs hta hA hT, bind, Except.bind]
  | text c =>
    simp only [staticNode] at h
    have hc : P.hasInterpolation c = false := by simpa using h
    simp [compileNode, compileTextNode, hc, bind, Except.bind]
  | other => rfl

/-- `setChildren` with a node's own children is the identity. -/
theorem setChildren_childrenOf (n : DNode) : n.setChildren n.childrenOf = n := by
  cases n <;> rfl

/-- Compiling a static node list succeeds, leaves the tree unchanged, and the
flat executor list (two slots per node) executes as a no-op against the very
same static node list. -/
theorem static_compileListAux (P : Tokenizer) (reg : Registry) (cfg : DrunkConfig) :
    ∀ (N : Nat) (ns : List DNode), sizeOf ns ≤ N → staticList P reg cfg ns = true →
      ∃ exs, compileListAux P reg cfg ns = .ok (ns, exs) ∧ exs.length = 2 * ns.length ∧
        ∀ s : BSt, runPairs ns exs s = (s, none) := by
  intro N
  induction N with
  | zero =>
    intro ns hsz
    exfalso
    cases ns <;> simp at hsz <;> omega
  | succ N ih =>
    intro ns hsz hstat
    cases ns with
    | nil =>
      refine ⟨[], ?_, by simp, fun s => ?_⟩
      · simp [compileListAux]
      · simp [runPairs]
    | cons n rest =>
      have hstat2 : staticNode P reg cfg n = true ∧ staticList P reg cfg rest = true := by
        have := hstat
        simp only [staticList, Bool.and_eq_true] at this
        exact this
      have hcn := static_compileNode P reg cfg n hstat2.1
      have hszrest : sizeOf rest ≤ N := by
        cases n <;> simp at hsz <;> omega
      obtain ⟨exsR, hR1, hR2, hR3⟩ := ih rest hszrest hstat2.2
      by_cases hch : n.hasChildNodes = true
      · have hcsStatic : staticList P reg cfg n.childrenOf = true := by
          have hsn := hstat2.1
          cases n with
          | element tag attrs cs =>
            simp only [staticNode, Bool.and_eq_true] at hsn
            simpa [DNode.childrenOf] using hsn.2
          | text c => rfl
          | other => rfl
        have hszcs : sizeOf n.childrenOf ≤ N := by
          cases n <;> simp [DNode.childrenOf] at hsz ⊢ <;> omega
        obtain ⟨exsC, hC1, hC2, hC3⟩ := ih n.childrenOf hszcs hcsStatic
        have hcsne : n.childrenOf ≠ [] := by
          intro hnil
          rw [DNode.hasChildNodes, hnil] at hch
          simp at hch
        have hlp : 0 < n.childrenOf.length := List.length_pos.mpr hcsne
        have hlen1 : exsC.length > 1 := by omega
        have hcl : compileNodeList P reg cfg n.childrenOf =
            .ok (n.childrenOf, some (.nodes exsC)) := by
          simp [compileNodeList, hC1, hlen1, bind, Except.bind]
        refine ⟨none :: some (.nodes exsC) :: exsR, ?_, ?_, ?_⟩
        · simp only [compileListAux, hcn, bind, Except.bind, optTerminalTag,
            Bool.not_false, Bool.true_and, hch, if_true, hcl, hR1,
            setChildren_childrenOf]
        · simp only [List.length_cons, hR2]
          omega
        · intro s
          have hcond : ¬(n.childrenOf.length * 2 ≠ exsC.length) := by omega
          simp only [runPairs, runOptExec, runExec, if_neg hcond, hC3, hR3]
      · have hch' : n.hasChildNodes = false := by
          cases hh : n.hasChildNodes
          · rfl
          · exact absurd hh hch
        refine ⟨none :: none :: exsR, ?_, ?_, ?_⟩
        · simp only [compileListAux, hcn, bind, Except.bind, optTerminalTag,
            Bool.not_false, Bool.true_and, hch', Bool.false_eq_true, if_false, hR1]
        · simp only [List.length_cons, hR2]
          omega
        · intro s
          simp only [runPairs, runOptExec, hR3]

/-- C9 (amended): a static subtree containing no TEXTAREA yields no
node-level unit (`compileNode` returns nothing); `compile` still returns a
binding program whose node-level part is absent, and executing that program
against the same static tree installs no bindings, yields an empty owned
slice, and its disposer leaves any binding ledger unchanged.  A TEXTAREA,
even when fully static, instead always compiles to the eager-eval wrapper
unit — a node-level unit that nevertheless installs no bindings when run. -/
theorem static_subtree_noop (P : Tokenizer) (reg : Registry) (cfg : DrunkConfig)
    (n : DNode) (attrs : List (String × String))
    (h : staticNode P reg cfg n = true)
    (hA : staticAttrs P cfg attrs = true)
    (hT : noTerminalMatch reg cfg attrs = true) :
    (compileNode P reg cfg n = .ok (n, none)
      ∧ ∃ prog, compile P reg cfg (.node n) = .ok prog ∧ prog.executor = none
          ∧ (∀ s : BSt, executeCompiled prog (.one n) s = (s, none, []))
          ∧ (∀ s : BSt, disposeOwned [] s.ledger = ([], s.ledger)))
    ∧ (compileElement P reg cfg ("TEXTAREA") attrs =
          .ok (attrs, some (.textareaWrap none))
      ∧ ∀ (t : LiveTarget) (s : BSt), runExec (.textareaWrap none) t s = (s, none)) := by
  have hta : compileElement P reg cfg ("TEXTAREA") attrs =
      .ok (attrs, some (.textareaWrap none)) := by
    by_cases he : attrs.isEmpty = true
    · simp [compileElement, he, wrapTextarea, bind, Except.bind]
    · have he' : attrs.isEmpty = false := by
        cases hh : attrs.isEmpty
        · rfl
        · exact absurd hh he
      simp [compileElement, he', static_processTerminal reg cfg attrs hT,
        static_processNormal P reg cfg attrs hA, wrapTextarea, bind, Except.bind]
  have htrun : ∀ (t : LiveTarget) (s : BSt), runExec (.textareaWrap none) t s = (s, none) := by
    intro t s
    simp [runExec]
  refine ⟨?_, hta, htrun⟩
  have hcn := static_compileNode P reg cfg n h
  have hdisp : ∀ s : BSt, disposeOwned [] s.ledger = ([], s.ledger) := by
    intro s
    unfold disposeOwned
    rw [show (([] : List Nat).length) = 0 from rfl, jsSplice_count_zero]
  refine ⟨hcn, ?_⟩
  by_cases hcond : (!optTerminalTag none && n.tagOf ≠ some ("SCRIPT")
      && n.hasChildNodes) = true
  · have hch : n.hasChildNodes = true := by
      rw [Bool.and_eq_true, Bool.and_eq_true] at hcond
      exact hcond.2
    have hcsStatic : staticList P reg cfg n.childrenOf = true := by
      cases n with
      | element tag attrs cs =>
        simp only [staticNode, Bool.and_eq_true] at h
        simpa [DNode.childrenOf] using h.2
      | text c => rfl
      | other => rfl
    obtain ⟨exsC, hC1, hC2, hC3⟩ :=
      static_compileListAux P reg cfg (sizeOf n.childrenOf) n.childrenOf
        (Nat.le_refl _) hcsStatic
    have hcsne : n.childrenOf ≠ [] := by
      intro hnil
      rw [DNode.hasChildNodes, hnil] at hch
      simp at hch
    have hlp : 0 < n.childrenOf.length := List.length_pos.mpr hcsne
    have hlen1 : exsC.length > 1 := by omega
    have hcl : compileNodeList P reg cfg n.childrenOf =
        .ok (n.childrenOf, some (.nodes exsC)) := by
      simp [compileNodeList, hC1, hlen1, bind, Except.bind]
    refine ⟨{ executor := none, childExecutor := some (.nodes exsC) }, ?_, rfl, ?_, hdisp⟩
    · simp only [compile, hcn, bind, Except.bind]
      rw [if_pos hcond, hcl]
    · intro s
      have hcond2 : ¬(n.childrenOf.length * 2 ≠ exsC.length) := by omega
      simp only [executeCompiled, runOptExec, childTarget, runExec, if_neg hcond2, hC3]
      simp
  · refine ⟨{ executor := none, childExecutor := none }, ?_, rfl, ?_, hdisp⟩
    · simp only [compile, hcn, bind, Except.bind]
      rw [if_neg hcond]
    · intro s
      simp [executeCompiled, runOptExec]

/-- Witness for C9 (amended): a DIV with a plain `class` attribute and a
static text child compiles to no node-level unit, the empty owned slice
disposes to an unchanged ledger, and a static TEXTAREA (plain `rows`
attribute) compiles to the eager-eval wrapper unit. -/
theorem static_subtree_noop_witness :
    compileNode demoTokenizer demoRegistry demoCfg
        (DNode.element ("DIV") [(("class"), ("c"))] [DNode.text ("hello")]) =
      .ok (DNode.element ("DIV") [(("class"), ("c"))] [DNode.text ("hello")], none)
    ∧ disposeOwned [] [7] = ([], [7])
    ∧ compileElement demoTokenizer demoRegistry demoCfg ("TEXTAREA") [(("rows"), ("3"))] =
        .ok ([(("rows"), ("3"))], some (.textareaWrap none)) := by
  have h := static_subtree_noop demoTokenizer demoRegistry demoCfg
    (DNode.element ("DIV") [(("class"), ("c"))] [DNode.text ("hello")])
    [(("rows"), ("3"))] (by rfl) (by rfl) (by rfl)
  refine ⟨h.1.1, ?_, h.2.1⟩
  obtain ⟨prog, _, _, _, hd⟩ := h.1.2
  exact hd { ledger := [7], nextId := 8 }

/-- The deferred-assignment scheduler emits only assignment events. -/
theorem runScheduler_assign :
    ∀ (o : List Nat) (q : List String), ∀ ev ∈ runScheduler q o, ∃ nm, ev = DataEvent.assign nm := by
  intro o
  induction o with
  | nil =>
    intro q ev hev
    cases q <;> simp [runScheduler] at hev
  | cons i rest ih =>
    intro q ev hev
    cases q with
    | nil => simp [runScheduler] at hev
    | cons q0 qr =>
      simp only [runScheduler, List.mem_cons] at hev
      rcases hev with rfl | hev
      · exact ⟨_, rfl⟩
      · exact ih _ ev hev

/-- Properties of the own first-index function on a present element:
the indexed element is the one sought, the index is in range, and cutting it
out leaves a permutation complement. -/
theorem idxOfStr_spec :
    ∀ (q : List String) (s : String), s ∈ q →
      q.getD (idxOfStr s q) ("") = s ∧ idxOfStr s q < q.length ∧
        q.Perm (s :: (q.take (idxOfStr s q) ++ q.drop (idxOfStr s q + 1))) := by
  intro q
  induction q with
  | nil => intro s hs; simp at hs
  | cons q0 qr ih =>
    intro s hs
    by_cases h0 : q0 = s
    · subst h0
      refine ⟨?_, ?_, ?_⟩
      · simp [idxOfStr]
      · simp [idxOfStr]
      · simp [idxOfStr]
    · have hs' : s ∈ qr := by
        rcases List.mem_cons.mp hs with h | h
        · exact absurd h.symm h0
        · exact h
      obtain ⟨hg, hl, hp⟩ := ih s hs'
      refine ⟨?_, ?_, ?_⟩
      · simpa [idxOfStr, h0] using hg
      · simp only [idxOfStr, h0, if_false, List.length_cons]
        omega
      · simp only [idxOfStr, h0, if_false]
        have htd : (q0 :: qr).take (idxOfStr s qr + 1) ++ (q0 :: qr).drop (idxOfStr s qr + 1 + 1) =
            q0 :: (qr.take (idxOfStr s qr) ++ qr.drop (idxOfStr s qr + 1)) := by
          simp [List.take_succ_cons, List.drop_succ_cons]
        rw [htd]
        exact (hp.cons q0).trans (List.Perm.swap s q0 _)

/-- The constructed oracle makes the scheduler settle the assignments exactly
in the requested order. -/
theorem runScheduler_oracleFor :
    ∀ (σ q : List String), σ.Perm q →
      runScheduler q (oracleFor σ q) = σ.map DataEvent.assign := by
  intro σ
  induction σ with
  | nil =>
    intro q h
    have hq : q = [] := h.symm.eq_nil
    subst hq
    rfl
  | cons s rest ih =>
    intro q h
    have hs : s ∈ q := h.subset (by simp)
    obtain ⟨hg, hl, hp⟩ := idxOfStr_spec q s hs
    cases q with
    | nil => simp at hs
    | cons q0 qr =>
      simp only [oracleFor, runScheduler]
      have hmod : idxOfStr s (q0 :: qr) % (q0 :: qr).length = idxOfStr s (q0 :: qr) :=
        Nat.mod_eq_of_lt hl
      rw [hmod, hg]
      have hperm' : rest.Perm ((q0 :: qr).take (idxOfStr s (q0 :: qr)) ++
          (q0 :: qr).drop (idxOfStr s (q0 :: qr) + 1)) :=
        (h.trans hp).cons_inv
      rw [ih _ hperm']
      rfl

/-- C7: during data resolution the property proxies are installed
synchronously, in key order, before any data future's settled value is
assigned: (1) in every trace each proxy event precedes every assignment
event; (2) every named property's proxy appears in every trace; (3) the
assignments themselves may settle in any order — for every permutation of the
properties there is a schedule realising exactly that assignment order after
the proxy prefix. -/
theorem proxy_installed_before_any_assignment (names : List String) :
    (∀ (oracle : List Nat) (k l : Nat) (pn an : String),
      (dataTrace names oracle).get? k = some (.proxy pn) →
      (dataTrace names oracle).get? l = some (.assign an) → k < l)
    ∧ (∀ pn ∈ names, ∀ oracle : List Nat, DataEvent.proxy pn ∈ dataTrace names oracle)
    ∧ (∀ σ : List String, σ.Perm names →
        dataTrace names (oracleFor σ names) =
          names.map DataEvent.proxy ++ σ.map DataEvent.assign) := by
  refine ⟨?_, ?_, ?_⟩
  · intro oracle k l pn an hk hl
    have hmaplen : (names.map DataEvent.proxy).length = names.length := by simp
    have hkb : k < names.length := by
      by_contra hk'
      push_neg at hk'
      have hk2 : (names.map DataEvent.proxy).length ≤ k := by omega
      rw [dataTrace, List.get?_append_right hk2] at hk
      have hmem := List.get?_mem hk
      obtain ⟨nm, hnm⟩ := runScheduler_assign oracle names _ hmem
      simp at hnm
    have hlb : names.length ≤ l := by
      by_contra hl'
      push_neg at hl'
      have hl2 : l < (names.map DataEvent.proxy).length := by omega
      rw [dataTrace, List.get?_append hl2] at hl
      have hmem := List.get?_mem hl
      simp [List.mem_map] at hmem
    omega
  · intro pn hpn oracle
    unfold dataTrace
    exact List.mem_append_left _ (List.mem_map_of_mem DataEvent.proxy hpn)
  · intro σ hperm
    unfold dataTrace
    rw [runScheduler_oracleFor σ names hperm]

/-- Witness for C7: with properties `a`, `b`, the schedule settling `b` first
yields the trace proxy a, proxy b, assign b, assign a; the first proxy
precedes the later assignment. -/
theorem proxy_installed_before_any_assignment_witness :
    dataTrace [("a"), ("b")] (oracleFor [("b"), ("a")] [("a"), ("b")]) =
      [DataEvent.proxy ("a"), DataEvent.proxy ("b"),
        DataEvent.assign ("b"), DataEvent.assign ("a")]
    ∧ (0 : Nat) < 2 := by
  have h := proxy_installed_before_any_assignment [("a"), ("b")]
  constructor
  · rw [h.2.2 [("b"), ("a")] (by decide)]
    rfl
  · exact h.1 [1, 0] 0 2 ("a") ("b") (by rfl) (by rfl)

end Drunk
